import Mathlib

/-!
Verification of the localization lint tool (scripts/l10n_lint.py).

The script loads the key set of a localization catalog, scans Swift source
files for string literals (after stripping comments), filters literals
through a key-shape heuristic, and reconciles the two key sets, printing
sorted `missing` and `unused` listings and exiting 1 exactly when `missing`
is non-empty.

The embedding below models file contents and keys as `List Char` and key
sets as `Finset (List Char)`.  The character classes mirror Python's `str.isalpha`,
`str.islower` and Python "cased" characters on the ASCII fragment (the
fragment Lean's `Char.isAlpha`/`Char.isLower`/`Char.isUpper` decide).
-/

namespace L10nLint

/-- The characters deleted by the chain
`s.replace('_','').replace('0','')....replace('9','')` in the shape filter. -/
def removedChars : List Char := ['_', '0', '1', '2', '3', '4', '5', '6', '7', '8', '9']

/-- One `str.replace(c, '')` step: delete every occurrence of `c`. -/
def removeChar (c : Char) (l : List Char) : List Char :=
  l.filter (fun d => d ≠ c)

/-- `s.replace('_','').replace('0','')....replace('9','')`: delete underscores
and the ten decimal digits, one character at a time, in the source's order. -/
def stripUnderscoreDigits (l : List Char) : List Char :=
  removeChar '9' (removeChar '8' (removeChar '7' (removeChar '6' (removeChar '5'
    (removeChar '4' (removeChar '3' (removeChar '2' (removeChar '1'
      (removeChar '0' (removeChar '_' l))))))))))

/-- Python's notion of a cased character, on the ASCII fragment. -/
def isCased (c : Char) : Bool := c.isLower || c.isUpper

/-- Python `str.isalpha`: non-empty and every character alphabetic. -/
def pyIsAlpha (l : List Char) : Bool := !l.isEmpty && l.all Char.isAlpha

/-- Python `str.islower`: at least one cased character and every cased
character lowercase. -/
def pyIsLower (l : List Char) : Bool :=
  l.any isCased && l.all (fun c => !isCased c || c.isLower)

/-- The heuristic shape filter of `main` (lines 83–90 of the script):
contains `'_'`; deleting underscores and digits leaves an `isalpha` string;
`islower`; length between 5 and 80; no `' '` character. -/
def shapeFilter (l : List Char) : Bool :=
  l.contains '_'
    && pyIsAlpha (stripUnderscoreDigits l)
    && pyIsLower l
    && (5 ≤ l.length && l.length ≤ 80)
    && !(l.contains ' ')

/-- Python `sorted(...)` applied to a set of keys: the unique
lexicographically sorted listing of the set's elements (sorting any list
representation of the set gives the same result, which is what makes the
lift well defined). -/
def sortedKeys (s : Finset (List Char)) : List (List Char) :=
  Quot.liftOn s.val (fun l => List.insertionSort (· ≤ ·) l)
    (fun l1 l2 h => List.eq_of_perm_of_sorted
      (((List.perm_insertionSort _ l1).trans h).trans (List.perm_insertionSort _ l2).symm)
      (List.sorted_insertionSort _ l1) (List.sorted_insertionSort _ l2))

/-- Block-comment removal, the substitution `re.sub(r'/\*.*?\*/', '', s)`
(DOTALL): repeatedly delete from a `/*` to the nearest following `*/`;
a `/*` with no matching `*/` is left in place (the regex does not match it).
`mode = true` means we are inside a candidate comment whose raw characters
(reversed) are in `buf`, to be restored verbatim if no `*/` ever closes it. -/
def sbAux : Bool → List Char → List Char → List Char
  | true, buf, [] => buf.reverse
  | false, _, [] => []
  | true, buf, c :: rest =>
      match rest with
      | d :: rest2 =>
          if c = '*' && d = '/' then sbAux false [] rest2
          else sbAux true (c :: buf) (d :: rest2)
      | [] => (c :: buf).reverse
  | false, buf, c :: rest =>
      match rest with
      | d :: rest2 =>
          if c = '/' && d = '*' then sbAux true ['*', '/'] rest2
          else c :: sbAux false buf (d :: rest2)
      | [] => [c]

/-- `RE_MULTI_LINE_COMMENT.sub('', content)`. -/
def removeBlockComments (l : List Char) : List Char := sbAux false [] l

/-- Line-comment removal, `re.sub(r'//.*$', '', s)` with MULTILINE: on each
line, delete from the first `//` to the end of the line (the newline stays). -/
def slAux : Bool → List Char → List Char
  | _, [] => []
  | true, c :: rest => if c = '\n' then '\n' :: slAux false rest else slAux true rest
  | false, c :: rest =>
      match rest with
      | d :: rest2 =>
          if c = '/' && d = '/' then slAux true rest2
          else c :: slAux false (d :: rest2)
      | [] => [c]

/-- `RE_SINGLE_LINE_COMMENT.sub('', content)`. -/
def removeLineComments (l : List Char) : List Char := slAux false l

/-- `remove_comments`: block comments are removed first, then line comments. -/
def remove_comments (l : List Char) : List Char :=
  removeLineComments (removeBlockComments l)

/-- String-literal extraction: all matches of
`RE_STRING_LITERAL = r'"([^"\n\\]*(?:\\.[^"\n\\]*)*)"'` via `finditer`,
collecting group 1 (the raw inner text, escapes not decoded).  A literal runs
from an opening `"` to the next quote not consumed as part of a `\.` escape
pair, on the same line; `\.` cannot consume a newline, so a bare newline, a
trailing backslash or the end of input abort the candidate (the aborted
region contains no further match: every quote inside it is escape-consumed
at every later starting position, so the scan resumes past it).
`mode = true` means inside a literal whose inner text (reversed) is `buf`. -/
def exAux : Bool → List Char → List Char → List (List Char)
  | _, _, [] => []
  | false, buf, c :: rest =>
      if c = '"' then exAux true [] rest else exAux false buf rest
  | true, buf, c :: rest =>
      if c = '"' then buf.reverse :: exAux false [] rest
      else if c = '\n' then exAux false [] rest
      else if c = '\\' then
        match rest with
        | [] => []
        | d :: rest2 =>
            if d = '\n' then exAux false [] rest2
            else exAux true (d :: '\\' :: buf) rest2
      else exAux true (c :: buf) rest

/-- All string literals (raw inner texts, in order) of a text. -/
def extractLiterals (l : List Char) : List (List Char) := exAux false [] l

/-- Literals collected from one source file: comments are stripped first
(`collect_string_literals`, lines 58–65). -/
def literalsOfFile (content : List Char) : List (List Char) :=
  extractLiterals (remove_comments content)

/-- The set `literals` built by `collect_string_literals` over a corpus of
file contents (the `.swift` files found under the source roots, in walk
order). -/
def collectLits (files : List (List Char)) : Finset (List Char) :=
  (files.flatMap literalsOfFile).toFinset

/-- The report produced by `main`: the sorted `missing` and `unused`
listings, the two counts printed in the statistics block, and the value
returned to `sys.exit`. -/
structure Report where
  missing : List (List Char)
  unused : List (List Char)
  catalogCount : Nat
  usedCount : Nat
  status : Nat
deriving DecidableEq

/-- The reconciliation logic of `main` (lines 71–120): `used` is the
intersection of ALL literals with the catalog, `potential_keys` the
shape-filtered literals, `missing = sorted(potential_keys - localized_keys)`,
`unused = sorted(localized_keys - used_keys)`, and the return value is 1
exactly when `missing` is non-empty. -/
def reconcile (catalog : Finset (List Char)) (lits : Finset (List Char)) : Report :=
  let used := lits ∩ catalog
  let potential := lits.filter (fun s => shapeFilter s = true)
  let missing := sortedKeys (potential \ catalog)
  let unused := sortedKeys (catalog \ used)
  Report.mk missing unused catalog.card used.card (if missing.isEmpty then 0 else 1)

/-- The errors an l10n_lint run can die with. -/
inductive PyError where
  | fileNotFound
  | parseError
deriving DecidableEq

/-- The ambient file system of a run: the catalog file (`none` = the file
does not exist) and the configured source roots, each either missing
(`none`) or a list of `.swift` file contents in walk order. -/
structure FS where
  catalog : Option (Finset (List Char))
  roots : List (Option (List (List Char)))

/-- `os.walk` over one root: a missing directory raises nothing — with the
default `onerror=None` the walk silently yields no entries. -/
def walkRoot : Option (List (List Char)) → List (List Char)
  | none => []
  | some fs => fs

/-- A whole run of the script: `load_localization_keys` raises
FileNotFoundError when the catalog file is absent (uncaught); otherwise
`collect_string_literals` walks the roots and `main` reconciles. -/
def runModel (fs : FS) : Except PyError Report :=
  match fs.catalog with
  | none => Except.error PyError.fileNotFound
  | some cat =>
      Except.ok (reconcile cat (collectLits (fs.roots.flatMap walkRoot)))

/-- The process exit status: `sys.exit(main())` on success; an uncaught
exception makes the CPython interpreter exit with status 1. -/
def processExit (fs : FS) : Nat :=
  match runModel fs with
  | Except.error _ => 1
  | Except.ok r => r.status

/-- The shape filter as the specification words it (spec §4.2, item 3):
at least one underscore; removing underscores and all decimal digits leaves
a string composed solely of alphabetic characters; entirely lowercase (read
as Python `str.islower`: at least one cased character and every cased
character lowercase); length between 5 and 80 inclusive; no whitespace
character.  Defined from the spec's words, to be compared with
`shapeFilter`, the filter the code computes. -/
def specShapePred (l : List Char) : Prop :=
  '_' ∈ l ∧
  (∀ c ∈ stripUnderscoreDigits l, c.isAlpha = true) ∧
  ((∃ c ∈ l, isCased c = true) ∧ (∀ c ∈ l, isCased c = true → c.isLower = true)) ∧
  (5 ≤ l.length ∧ l.length ≤ 80) ∧
  (∀ c ∈ l, c.isWhitespace = false)

end L10nLint

namespace L10nLint

/-! ### Helper lemmas: character classes and the shape filter -/

theorem mem_removedChars {c : Char} :
    c ∈ removedChars ↔ c = '_' ∨ c = '0' ∨ c = '1' ∨ c = '2' ∨ c = '3' ∨ c = '4'
      ∨ c = '5' ∨ c = '6' ∨ c = '7' ∨ c = '8' ∨ c = '9' := by
  simp [removedChars]

theorem mem_strip {c : Char} {l : List Char} :
    c ∈ stripUnderscoreDigits l ↔ c ∈ l ∧ c ∉ removedChars := by
  simp [stripUnderscoreDigits, removeChar, List.mem_filter, mem_removedChars]
  tauto

theorem cased_not_removed {c : Char} (h : isCased c = true) : c ∉ removedChars := by
  intro hc
  rw [mem_removedChars] at hc
  rcases hc with rfl | rfl | rfl | rfl | rfl | rfl | rfl | rfl | rfl | rfl | rfl <;>
    exact absurd h (by decide)

theorem alpha_not_removed {c : Char} (h : c.isAlpha = true) : c ∉ removedChars := by
  intro hc
  rw [mem_removedChars] at hc
  rcases hc with rfl | rfl | rfl | rfl | rfl | rfl | rfl | rfl | rfl | rfl | rfl <;>
    exact absurd h (by decide)

theorem ws_cases {c : Char} (h : c.isWhitespace = true) :
    c = ' ' ∨ c = '\t' ∨ c = '\r' ∨ c = '\n' := by
  simp [Char.isWhitespace] at h
  tauto

theorem ws_not_removed {c : Char} (h : c.isWhitespace = true) : c ∉ removedChars := by
  intro hc
  rw [mem_removedChars] at hc
  rcases ws_cases h with rfl | rfl | rfl | rfl <;> simp_all

theorem ws_not_alpha {c : Char} (h : c.isWhitespace = true) : c.isAlpha = false := by
  rcases ws_cases h with rfl | rfl | rfl | rfl <;> decide

theorem digit_mem_removed {c : Char} (h : c.isDigit = true) : c ∈ removedChars := by
  simp [Char.isDigit] at h
  have h1 : 48 ≤ c.toNat := UInt32.le_toNat_of_le (by decide) h.1
  have h2 : c.toNat ≤ 57 := UInt32.toNat_le_of_le (by decide) h.2
  have hc : c = Char.ofNat c.toNat := (Char.ofNat_toNat c).symm
  have h0 : c.toNat = 48 ∨ c.toNat = 49 ∨ c.toNat = 50 ∨ c.toNat = 51 ∨ c.toNat = 52
      ∨ c.toNat = 53 ∨ c.toNat = 54 ∨ c.toNat = 55 ∨ c.toNat = 56 ∨ c.toNat = 57 := by omega
  rcases h0 with h0 | h0 | h0 | h0 | h0 | h0 | h0 | h0 | h0 | h0 <;>
    rw [hc, h0] <;> decide

theorem shapeFilter_iff {l : List Char} :
    shapeFilter l = true ↔
      ('_' ∈ l ∧ pyIsAlpha (stripUnderscoreDigits l) = true ∧ pyIsLower l = true
        ∧ (5 ≤ l.length ∧ l.length ≤ 80) ∧ ' ' ∉ l) := by
  simp [shapeFilter]
  tauto

theorem shape_chars {l : List Char} (h : shapeFilter l = true) :
    ∀ c ∈ l, c.isAlpha = true ∨ c ∈ removedChars := by
  rw [shapeFilter_iff] at h
  intro c hc
  by_cases hr : c ∈ removedChars
  · exact Or.inr hr
  · have hmem : c ∈ stripUnderscoreDigits l := mem_strip.mpr ⟨hc, hr⟩
    have h2 := h.2.1
    simp [pyIsAlpha] at h2
    exact Or.inl (h2.2 c hmem)

theorem shape_notMem {l : List Char} (h : shapeFilter l = true) :
    '"' ∉ l ∧ '/' ∉ l ∧ '*' ∉ l ∧ '\n' ∉ l := by
  refine ⟨?_, ?_, ?_, ?_⟩ <;> intro hc <;>
    rcases shape_chars h _ hc with ha | hr <;>
      first
        | exact absurd ha (by decide)
        | exact absurd hr (by rw [mem_removedChars]; decide)

/-! ### Helper lemmas: comment stripping and literal extraction -/

theorem sbAux_no_star : ∀ l : List Char, '*' ∉ l → ∀ buf, sbAux false buf l = l := by
  intro l
  induction l with
  | nil => intro _ _; rfl
  | cons c rest ih =>
    intro h buf
    cases rest with
    | nil => rfl
    | cons d rest2 =>
      have hd : d ≠ '*' := fun h2 => h (by simp [h2])
      have hb : (decide (c = '/') && decide (d = '*')) = false := by simp [hd]
      simp [sbAux, hb]
      exact ih (fun hm => h (List.mem_cons_of_mem _ hm)) buf

theorem sbAux_close (q : List Char) : ∀ m : List Char, '*' ∉ m → ∀ buf,
    sbAux true buf (m ++ '*' :: '/' :: q) = sbAux false [] q := by
  intro m
  induction m with
  | nil => intro _ buf; simp [sbAux]
  | cons c m' ih =>
    intro h buf
    have hc : c ≠ '*' := fun h2 => h (by simp [h2])
    cases m' with
    | nil =>
      have hb2 : (decide (c = '*') && decide ('*' = '/')) = false := by simp [hc]
      simp only [List.nil_append, List.cons_append]
      simp [sbAux, hb2]
    | cons e m'' =>
      have he : (decide (c = '*') && decide (e = '/')) = false := by simp [hc]
      simp only [List.cons_append]
      simp [sbAux, he]
      exact ih (fun hm => h (List.mem_cons_of_mem _ hm)) _

theorem removeBlock_context (q : List Char) : ∀ p : List Char, ∀ m : List Char,
    '*' ∉ p → '*' ∉ m →
    removeBlockComments (p ++ '/' :: '*' :: (m ++ '*' :: '/' :: q))
      = p ++ removeBlockComments q := by
  intro p
  induction p with
  | nil =>
    intro m _ hm
    simp only [List.nil_append]
    unfold removeBlockComments
    simp [sbAux]
    exact sbAux_close q m hm _
  | cons a p' ih =>
    intro m hp hm
    have ha : '*' ∉ p' := fun h2 => hp (List.mem_cons_of_mem _ h2)
    unfold removeBlockComments at ih ⊢
    simp only [List.cons_append]
    cases p' with
    | nil =>
      have hb : (decide (a = '/') && decide ('/' = '*')) = false := by simp
      simp only [List.nil_append] at ih ⊢
      simp [sbAux, hb]
      exact ih m (by simp) hm
    | cons b p'' =>
      have hbne : b ≠ '*' := fun h2 => ha (by simp [h2])
      have hb : (decide (a = '/') && decide (b = '*')) = false := by simp [hbne]
      simp only [List.cons_append] at ih ⊢
      simp [sbAux, hb]
      exact ih m ha hm

theorem slAux_no_slash : ∀ l : List Char, '/' ∉ l → slAux false l = l := by
  intro l
  induction l with
  | nil => intro _; rfl
  | cons c rest ih =>
    intro h
    have hc : c ≠ '/' := fun h2 => h (by simp [h2])
    cases rest with
    | nil => rfl
    | cons d rest2 =>
      have hb : (decide (c = '/') && decide (d = '/')) = false := by simp [hc]
      simp [slAux, hb]
      exact ih (fun hm => h (List.mem_cons_of_mem _ hm))

theorem slAux_true (q : List Char) : ∀ m : List Char, '\n' ∉ m →
    slAux true (m ++ '\n' :: q) = '\n' :: slAux false q := by
  intro m
  induction m with
  | nil => simp [slAux]
  | cons c m' ih =>
    intro h
    have hc : c ≠ '\n' := fun h2 => h (by simp [h2])
    simp only [List.cons_append]
    simp [slAux, hc]
    exact ih (fun hm => h (List.mem_cons_of_mem _ hm))

theorem slAux_false_cons {c : Char} (hc : c ≠ '/') (l : List Char) :
    slAux false (c :: l) = c :: slAux false l := by
  cases l with
  | nil => rfl
  | cons d rest =>
    have hb : (decide (c = '/') && decide (d = '/')) = false := by simp [hc]
    simp [slAux, hb]

theorem removeLine_context (q : List Char) : ∀ p : List Char, ∀ m : List Char,
    '/' ∉ p → '\n' ∉ m →
    removeLineComments (p ++ '/' :: '/' :: (m ++ '\n' :: q))
      = p ++ '\n' :: removeLineComments q := by
  intro p
  induction p with
  | nil =>
    intro m _ hm
    simp only [List.nil_append]
    unfold removeLineComments
    simp [slAux]
    exact slAux_true q m hm
  | cons a p' ih =>
    intro m hp hm
    have ha : '/' ∉ p' := fun h2 => hp (List.mem_cons_of_mem _ h2)
    have hane : a ≠ '/' := fun h2 => hp (by simp [h2])
    unfold removeLineComments at ih ⊢
    simp only [List.cons_append]
    rw [slAux_false_cons hane]
    rw [ih m ha hm]

theorem exAux_no_quote : ∀ l : List Char, '"' ∉ l → ∀ buf, exAux false buf l = [] := by
  intro l
  induction l with
  | nil => intro _ _; rfl
  | cons c rest ih =>
    intro h buf
    have hc : c ≠ '"' := fun h2 => h (by simp [h2])
    simp [exAux, hc]
    exact ih (fun hm => h (List.mem_cons_of_mem _ hm)) buf

theorem collectLits_single_empty {f : List Char} (h : literalsOfFile f = []) :
    collectLits [f] = ∅ := by
  unfold collectLits
  simp [h]

/-! ### Helper lemmas: the sorted key listings -/

theorem sortedKeys_sorted (s : Finset (List Char)) : List.Sorted (· ≤ ·) (sortedKeys s) := by
  rcases s with ⟨m, hm⟩
  revert hm
  induction m using Quotient.inductionOn with
  | h l => intro hm; exact List.sorted_insertionSort _ _

theorem sortedKeys_perm (s : Finset (List Char)) : ∀ a, a ∈ sortedKeys s ↔ a ∈ s := by
  rcases s with ⟨m, hm⟩
  revert hm
  induction m using Quotient.inductionOn with
  | h l =>
    intro hm a
    show a ∈ List.insertionSort (· ≤ ·) l ↔ _
    rw [(List.perm_insertionSort (· ≤ ·) l).mem_iff]
    simp [Finset.mem_def]

theorem sortedKeys_nodup (s : Finset (List Char)) : (sortedKeys s).Nodup := by
  rcases s with ⟨m, hm⟩
  revert hm
  induction m using Quotient.inductionOn with
  | h l =>
    intro hm
    exact ((List.perm_insertionSort (· ≤ ·) l).nodup_iff).mpr hm

theorem sortedKeys_toFinset (s : Finset (List Char)) : (sortedKeys s).toFinset = s := by
  ext a
  rw [List.mem_toFinset]
  exact sortedKeys_perm s a

theorem sortedKeys_empty : sortedKeys ∅ = [] := rfl

/-! ### Helper lemmas: the shape filter against the spec's wording, and
the status computation -/

theorem shapeFilter_iff_spec (l : List Char) : shapeFilter l = true ↔ specShapePred l := by
  rw [shapeFilter_iff]
  unfold specShapePred
  constructor
  · rintro ⟨h1, h2, h3, h4, h5⟩
    simp [pyIsAlpha] at h2
    simp [pyIsLower] at h3
    refine ⟨h1, fun c hc => h2.2 c hc, ⟨h3.1, fun c hc hcase => ?_⟩, h4, ?_⟩
    · rcases h3.2 c hc with h | h
      · exact absurd hcase (by simp [h])
      · exact h
    · intro c hc
      by_contra hw
      rw [Bool.not_eq_false] at hw
      have hmem : c ∈ stripUnderscoreDigits l := mem_strip.mpr ⟨hc, ws_not_removed hw⟩
      have := h2.2 c hmem
      rw [ws_not_alpha hw] at this
      exact Bool.false_ne_true this
  · rintro ⟨h1, h2, ⟨⟨c0, hc0, hcase0⟩, hlow⟩, h4, h5⟩
    refine ⟨h1, ?_, ?_, h4, ?_⟩
    · simp [pyIsAlpha]
      constructor
      · intro hnil
        have : c0 ∈ stripUnderscoreDigits l := mem_strip.mpr ⟨hc0, cased_not_removed hcase0⟩
        rw [hnil] at this
        exact absurd this (List.not_mem_nil c0)
      · exact h2
    · simp [pyIsLower]
      refine ⟨⟨c0, hc0, hcase0⟩, fun c hc => ?_⟩
      by_cases hcs : isCased c = true
      · exact Or.inr (hlow c hc hcs)
      · exact Or.inl (by simpa using hcs)
    · intro hsp
      have := h5 ' ' hsp
      exact absurd this (by decide)

theorem reconcile_status (catalog lits : Finset (List Char)) :
    ((reconcile catalog lits).status = 1 ↔ (reconcile catalog lits).missing ≠ [])
    ∧ ((reconcile catalog lits).missing = [] → (reconcile catalog lits).status = 0) := by
  by_cases hm : sortedKeys ((lits.filter (fun s => shapeFilter s = true)) \ catalog) = []
  · simp [reconcile, hm]
  · have h2 : (sortedKeys ((lits.filter (fun s => shapeFilter s = true)) \ catalog)).isEmpty
        = false := by
      cases he : sortedKeys ((lits.filter (fun s => shapeFilter s = true)) \ catalog)
      · exact absurd he hm
      · rfl
    simp [reconcile, h2, hm]

end L10nLint

namespace L10nLint

/-! ### The claims -/

/-- C1 (amended): the reconciler does not derive all three result sets from
one code-key set.  `missing` is derived from the shape-filtered literal set
(`missing = sorted(filtered − catalog)`), while `used` and `unused` are
derived from the raw literal set: `used = literals ∩ catalog` (reported only
as a count) and `unused = sorted(catalog − literals)`. -/
theorem C1_reconciler (catalog lits : Finset (List Char)) :
    (reconcile catalog lits).missing
        = sortedKeys ((lits.filter (fun s => shapeFilter s = true)) \ catalog)
    ∧ (reconcile catalog lits).unused = sortedKeys (catalog \ lits)
    ∧ (reconcile catalog lits).usedCount = (lits ∩ catalog).card := by
  refine ⟨rfl, ?_, rfl⟩
  show sortedKeys (catalog \ (lits ∩ catalog)) = sortedKeys (catalog \ lits)
  congr 1
  ext a
  simp [Finset.mem_sdiff, Finset.mem_inter]

/-- C1 counterexample: catalog = the single key `Hello`, and one source file
whose sole literal is `"Hello"` (which fails the shape filter, so the
shape-filtered code-key set is empty).  The code's `unused` listing is empty
and its used-count is 1, while deriving `unused = catalogKeys − codeKeys`
and `used = codeKeys ∩ catalogKeys` from the shape-filtered code-key set,
as the claim states, would give `["Hello"]` and 0. -/
theorem C1_counterexample :
    (reconcile {"Hello".data} (collectLits ["\"Hello\"".data])).unused = []
    ∧ (reconcile {"Hello".data} (collectLits ["\"Hello\"".data])).usedCount = 1
    ∧ sortedKeys (({"Hello".data} : Finset (List Char))
          \ ((collectLits ["\"Hello\"".data]).filter (fun s => shapeFilter s = true)))
        = ["Hello".data]
    ∧ (((collectLits ["\"Hello\"".data]).filter (fun s => shapeFilter s = true))
          ∩ {"Hello".data}).card = 0 :=
  ⟨by decide, by decide, by decide, by decide⟩

/-- C2 (amended): if the catalog file does not exist the run terminates with
an uncaught not-found error and the process exits with status 1 — the same
status as a lint failure, not a distinct one; a missing source root does
not raise: the walk yields nothing for it and the run behaves exactly as if
that root were absent. -/
theorem C2_error_handling (fs : FS) (h : fs.catalog = none) :
    (runModel fs = Except.error PyError.fileNotFound ∧ processExit fs = 1)
    ∧ (∀ cat roots, runModel (FS.mk (some cat) (none :: roots))
        = runModel (FS.mk (some cat) roots)) := by
  obtain ⟨c0, roots⟩ := fs
  cases h
  exact ⟨⟨rfl, rfl⟩, fun _ _ => rfl⟩

/-- C2 witness: on a file system with no catalog file the run dies with the
not-found error and the process exit status is 1. -/
theorem C2_witness :
    runModel (FS.mk none []) = Except.error PyError.fileNotFound
    ∧ processExit (FS.mk none []) = 1 :=
  (C2_error_handling (FS.mk none []) rfl).1

/-- C2 counterexample: with an existing catalog holding one key and a single
missing source root, the run does not terminate with a not-found error: it
completes, produces the full report, and exits with status 0. -/
theorem C2_counterexample :
    runModel (FS.mk (some {"k_key_one".data}) [none])
      = Except.ok (Report.mk [] ["k_key_one".data] 1 0 0)
    ∧ processExit (FS.mk (some {"k_key_one".data}) [none]) = 0 :=
  ⟨by rfl, by decide⟩

/-- C3: for every run that completes without an error, the process exit
status is 1 exactly when the `missing` listing is non-empty; in particular
an empty `missing` listing (whatever `unused` holds) yields exit status 0. -/
theorem C3_exit_status (fs : FS) (r : Report) (h : runModel fs = Except.ok r) :
    (processExit fs = 1 ↔ r.missing ≠ []) ∧ (r.missing = [] → processExit fs = 0) := by
  have hs : processExit fs = r.status := by
    unfold processExit
    rw [h]
  obtain ⟨c0, roots⟩ := fs
  cases c0 with
  | none => exact absurd h (by simp [runModel])
  | some c =>
    have hr : r = reconcile c (collectLits (roots.flatMap walkRoot)) := by
      unfold runModel at h
      exact (Except.ok.inj h).symm
    rw [hs, hr]
    exact reconcile_status _ _

/-- C3 witness: a run over an empty corpus with the one catalog key
`stale_key` completes with an empty `missing` listing, a non-empty `unused`
listing, and exit status 0. -/
theorem C3_witness :
    ((processExit (FS.mk (some {"stale_key".data}) []) = 1
        ↔ (reconcile {"stale_key".data} (collectLits [])).missing ≠ [])
      ∧ ((reconcile {"stale_key".data} (collectLits [])).missing = []
        → processExit (FS.mk (some {"stale_key".data}) []) = 0))
    ∧ (reconcile {"stale_key".data} (collectLits [])).unused = ["stale_key".data]
    ∧ processExit (FS.mk (some {"stale_key".data}) []) = 0 :=
  ⟨C3_exit_status (FS.mk (some {"stale_key".data}) [])
      (reconcile {"stale_key".data} (collectLits [])) rfl,
    by decide, by decide⟩

/-- C4: the shape filter retains a literal exactly under the spec's five
conditions (underscore present; deleting underscores and digits leaves an
all-alphabetic remainder; entirely lowercase; length between 5 and 80
inclusive; no whitespace), and the boundary cases behave as stated: a
5-character lowercase literal with an underscore passes; length 4, length
81, an uppercase letter, and an embedded space each fail. -/
theorem C4_shape_filter :
    (∀ l : List Char, shapeFilter l = true ↔ specShapePred l)
    ∧ shapeFilter "ab_cd".data = true
    ∧ shapeFilter "a_bc".data = false
    ∧ shapeFilter ('_' :: List.replicate 80 'a') = false
    ∧ ('_' :: List.replicate 80 'a').length = 81
    ∧ shapeFilter "aB_cd".data = false
    ∧ shapeFilter "ab c_".data = false :=
  ⟨shapeFilter_iff_spec, by decide, by decide, by decide, by decide, by decide, by decide⟩

/-- C5 (amended): comment stripping removes block comments first and line
comments second, and a key-shaped literal whose only occurrence lies inside
a line comment or inside a block comment does not appear in the extracted
code keys, provided the code around the comment contains no string-literal
delimiter and no comment marker: for any such prefix `p` and suffix `q`,
the file `p // "s" \n q` and the file `p /* "s" */ q` yield no occurrence
of `s` among the collected keys.  (Without that proviso the guarantee
fails: removal is purely textual and can splice a key-shaped literal
together from fragments around removed comments.) -/
theorem C5_comment_only_literal (s p q : List Char) (hs : shapeFilter s = true)
    (hp : '/' ∉ p ∧ '*' ∉ p ∧ '"' ∉ p) (hq : '/' ∉ q ∧ '*' ∉ q ∧ '"' ∉ q) :
    (∀ l : List Char, remove_comments l = removeLineComments (removeBlockComments l))
    ∧ s ∉ collectLits [p ++ '/' :: '/' :: ((" \"".data ++ s ++ "\"".data) ++ '\n' :: q)]
    ∧ s ∉ collectLits [p ++ '/' :: '*' :: ((" \"".data ++ s ++ "\" ".data) ++ '*' :: '/' :: q)] := by
  obtain ⟨hsq, hsl, hst, hnl⟩ := shape_notMem hs
  obtain ⟨hp1, hp2, hp3⟩ := hp
  obtain ⟨hq1, hq2, hq3⟩ := hq
  refine ⟨fun _ => rfl, ?_, ?_⟩
  · have hstar : '*' ∉ p ++ '/' :: '/' :: ((" \"".data ++ s ++ "\"".data) ++ '\n' :: q) := by
      intro hmem
      simp [List.mem_append] at hmem
      rcases hmem with h | h | h
      · exact hp2 h
      · exact hst h
      · exact hq2 h
    have h1 : removeBlockComments
          (p ++ '/' :: '/' :: ((" \"".data ++ s ++ "\"".data) ++ '\n' :: q))
        = p ++ '/' :: '/' :: ((" \"".data ++ s ++ "\"".data) ++ '\n' :: q) :=
      sbAux_no_star _ hstar []
    have h2 : removeLineComments
          (p ++ '/' :: '/' :: ((" \"".data ++ s ++ "\"".data) ++ '\n' :: q))
        = p ++ '\n' :: removeLineComments q :=
      removeLine_context q p _ hp1 (by intro hm; simp at hm; exact hnl hm)
    have h3 : removeLineComments q = q := slAux_no_slash q hq1
    have h4 : literalsOfFile
          (p ++ '/' :: '/' :: ((" \"".data ++ s ++ "\"".data) ++ '\n' :: q)) = [] := by
      unfold literalsOfFile remove_comments extractLiterals
      rw [h1, h2, h3]
      apply exAux_no_quote
      intro hm
      rcases List.mem_append.mp hm with h | h
      · exact hp3 h
      · rcases List.mem_cons.mp h with h2 | h2
        · exact absurd h2 (by decide)
        · exact hq3 h2
    rw [collectLits_single_empty h4]
    exact Finset.not_mem_empty s
  · have h1 : removeBlockComments
          (p ++ '/' :: '*' :: ((" \"".data ++ s ++ "\" ".data) ++ '*' :: '/' :: q))
        = p ++ removeBlockComments q :=
      removeBlock_context q p _ hp2 (by intro hm; simp at hm; exact hst hm)
    have h2 : removeBlockComments q = q := sbAux_no_star q hq2 []
    have h3 : removeLineComments (p ++ q) = p ++ q := by
      apply slAux_no_slash
      intro hm
      rcases List.mem_append.mp hm with h | h
      · exact hp1 h
      · exact hq1 h
    have h4 : literalsOfFile
          (p ++ '/' :: '*' :: ((" \"".data ++ s ++ "\" ".data) ++ '*' :: '/' :: q)) = [] := by
      unfold literalsOfFile remove_comments extractLiterals
      rw [h1, h2, h3]
      apply exAux_no_quote
      intro hm
      rcases List.mem_append.mp hm with h | h
      · exact hp3 h
      · exact hq3 h
    rw [collectLits_single_empty h4]
    exact Finset.not_mem_empty s

/-- C5 witness: the key-shaped literal `foo_bar_baz` is not extracted from
`func f() // "foo_bar_baz"` followed by a line `done()`, nor from
`func f() /* "foo_bar_baz" */ done()`. -/
theorem C5_witness :
    shapeFilter "foo_bar_baz".data = true
    ∧ ("foo_bar_baz".data ∉ collectLits ["func f() ".data ++ '/' :: '/' ::
          ((" \"".data ++ "foo_bar_baz".data ++ "\"".data) ++ '\n' :: "done()".data)]
      ∧ "foo_bar_baz".data ∉ collectLits ["func f() ".data ++ '/' :: '*' ::
          ((" \"".data ++ "foo_bar_baz".data ++ "\" ".data) ++ '*' :: '/' :: "done()".data)]) :=
  ⟨by decide, (C5_comment_only_literal "foo_bar_baz".data "func f() ".data "done()".data
      (by decide) (by decide) (by decide)).2⟩

/-- C5 counterexample: in the file
`/* "foo_bar_baz" */ let a = "foo_/* x */bar_baz"` the key-shaped literal
`foo_bar_baz` occurs exactly once, starting at position 4, inside the
leading 19-character block comment `/* "foo_bar_baz" */` — yet comment
removal deletes both block comments, splicing the remainder into
` let a = "foo_bar_baz"`, and `foo_bar_baz` IS among the collected code
keys, falsifying the claim for this source file. -/
theorem C5_counterexample :
    shapeFilter "foo_bar_baz".data = true
    ∧ "/* \"foo_bar_baz\" */ let a = \"foo_/* x */bar_baz\"".data
        = "/* \"foo_bar_baz\" */".data ++ " let a = \"foo_/* x */bar_baz\"".data
    ∧ ("/* \"foo_bar_baz\" */".data).length = 19
    ∧ (List.range ("/* \"foo_bar_baz\" */ let a = \"foo_/* x */bar_baz\"".data).length).filter
        (fun i => (("/* \"foo_bar_baz\" */ let a = \"foo_/* x */bar_baz\"".data.drop i).take 11
          = "foo_bar_baz".data)) = [4]
    ∧ remove_comments "/* \"foo_bar_baz\" */ let a = \"foo_/* x */bar_baz\"".data
        = " let a = \"foo_bar_baz\"".data
    ∧ "foo_bar_baz".data
        ∈ collectLits ["/* \"foo_bar_baz\" */ let a = \"foo_/* x */bar_baz\"".data] :=
  ⟨by decide, by decide, by decide, by decide, by decide, by decide⟩

/-- C6: the source literal `"a\"b_test"` is extracted as one single literal
whose collected inner text is the raw (not unescaped) `a\"b_test`, and an
escaped quote inside a literal never terminates it: the scanner buffers the
backslash and the quote and continues the same literal. -/
theorem C6_escaped_quote :
    extractLiterals "\"a\\\"b_test\"".data = ["a\\\"b_test".data]
    ∧ collectLits ["\"a\\\"b_test\"".data] = {"a\\\"b_test".data}
    ∧ (∀ buf rest : List Char,
        exAux true buf ('\\' :: '"' :: rest) = exAux true ('"' :: '\\' :: buf) rest) :=
  ⟨by decide, by decide, fun _ _ => rfl⟩

/-- C7: running on an empty source tree with a non-empty catalog yields an
empty `missing` listing, an `unused` listing holding exactly the full
catalog key set, and exit status 0. -/
theorem C7_empty_source (catalog : Finset (List Char)) (h : catalog ≠ ∅) :
    runModel (FS.mk (some catalog) [])
      = Except.ok (Report.mk [] (sortedKeys catalog) catalog.card 0 0)
    ∧ (sortedKeys catalog).toFinset = catalog
    ∧ processExit (FS.mk (some catalog) []) = 0 := by
  have he : collectLits (([] : List (Option (List (List Char)))).flatMap walkRoot) = ∅ := rfl
  have hrec : reconcile catalog ∅ = Report.mk [] (sortedKeys catalog) catalog.card 0 0 := by
    simp [reconcile, sortedKeys_empty]
  have hrun : runModel (FS.mk (some catalog) [])
      = Except.ok (Report.mk [] (sortedKeys catalog) catalog.card 0 0) := by
    show Except.ok (reconcile catalog (collectLits _)) = _
    rw [he, hrec]
  refine ⟨hrun, sortedKeys_toFinset catalog, ?_⟩
  unfold processExit
  rw [hrun]

/-- C7 witness: the catalog holding the single key `kx_key` is non-empty,
and a run over an empty source tree reports it as the whole `unused`
listing with exit status 0. -/
theorem C7_witness :
    (({"kx_key".data} : Finset (List Char)) ≠ ∅)
    ∧ (runModel (FS.mk (some {"kx_key".data}) [])
        = Except.ok (Report.mk [] (sortedKeys {"kx_key".data})
            ({"kx_key".data} : Finset (List Char)).card 0 0)
      ∧ (sortedKeys ({"kx_key".data} : Finset (List Char))).toFinset = {"kx_key".data}
      ∧ processExit (FS.mk (some {"kx_key".data}) []) = 0) :=
  ⟨by decide, C7_empty_source {"kx_key".data} (by decide)⟩

/-- C8: both report listings are lexicographically sorted and duplicate
free, and the reconciliation result is independent of the order in which
the corpus files were walked. -/
theorem C8_report_order (catalog : Finset (List Char)) (files1 files2 : List (List Char))
    (hp : files1.Perm files2) :
    List.Sorted (· ≤ ·) (reconcile catalog (collectLits files1)).missing
    ∧ (reconcile catalog (collectLits files1)).missing.Nodup
    ∧ List.Sorted (· ≤ ·) (reconcile catalog (collectLits files1)).unused
    ∧ (reconcile catalog (collectLits files1)).unused.Nodup
    ∧ collectLits files1 = collectLits files2
    ∧ reconcile catalog (collectLits files1) = reconcile catalog (collectLits files2) := by
  have hc : collectLits files1 = collectLits files2 :=
    List.toFinset_eq_of_perm _ _ (hp.flatMap_right literalsOfFile)
  exact ⟨sortedKeys_sorted _, sortedKeys_nodup _, sortedKeys_sorted _, sortedKeys_nodup _,
    hc, by rw [hc]⟩

/-- C8 witness: walking the same two files in either order produces the same
literal set. -/
theorem C8_witness :
    (["\"k_one\"".data, "\"k_two\"".data].Perm ["\"k_two\"".data, "\"k_one\"".data])
    ∧ collectLits ["\"k_one\"".data, "\"k_two\"".data]
        = collectLits ["\"k_two\"".data, "\"k_one\"".data] :=
  ⟨by decide,
    (C8_report_order {"k_one".data} ["\"k_one\"".data, "\"k_two\"".data]
      ["\"k_two\"".data, "\"k_one\"".data] (by decide)).2.2.2.2.1⟩

/-- C9: a literal made only of decimal digits and underscores never passes
the shape filter, although deleting underscores and digits from it leaves
the empty string (which Python's `isalpha` rejects, and such a literal has
no cased character for `islower`). -/
theorem C9_digits_underscores (l : List Char) (h : ∀ c ∈ l, c.isDigit = true ∨ c = '_') :
    shapeFilter l = false ∧ stripUnderscoreDigits l = [] := by
  have hrem : ∀ c ∈ l, c ∈ removedChars := by
    intro c hc
    rcases h c hc with hd | rfl
    · exact digit_mem_removed hd
    · rw [mem_removedChars]; tauto
  have hstrip : stripUnderscoreDigits l = [] := by
    rw [List.eq_nil_iff_forall_not_mem]
    intro c hc
    rw [mem_strip] at hc
    exact hc.2 (hrem c hc.1)
  refine ⟨?_, hstrip⟩
  cases hsf : shapeFilter l
  · rfl
  · exfalso
    rw [shapeFilter_iff] at hsf
    have h3 := hsf.2.2.1
    simp [pyIsLower] at h3
    obtain ⟨c0, hc0, hcase0⟩ := h3.1
    exact cased_not_removed hcase0 (hrem c0 hc0)

/-- C9 witness: the literal `123_4567` is rejected by the shape filter and
its underscore-and-digit-stripped remainder is empty. -/
theorem C9_witness :
    shapeFilter "123_4567".data = false ∧ stripUnderscoreDigits "123_4567".data = [] :=
  C9_digits_underscores "123_4567".data (by decide)

/-- C10: line-comment stripping is purely textual — everything from the
first `//` of a line to the end of the line is deleted even when the `//`
lies inside a string literal — and hence on the live line
`let a = "http://x"; let b = "foo_bar_baz"` the key-shaped literal
`foo_bar_baz`, although extracted from the raw text, is not among the
collected code keys. -/
theorem C10_textual_comments :
    (∀ p m q : List Char, '/' ∉ p → '\n' ∉ m →
        removeLineComments (p ++ '/' :: '/' :: (m ++ '\n' :: q))
          = p ++ '\n' :: removeLineComments q)
    ∧ shapeFilter "foo_bar_baz".data = true
    ∧ "foo_bar_baz".data ∈ extractLiterals "let a = \"http://x\"; let b = \"foo_bar_baz\"".data
    ∧ "foo_bar_baz".data ∉ collectLits ["let a = \"http://x\"; let b = \"foo_bar_baz\"".data] :=
  ⟨fun p m q hp hm => removeLine_context q p m hp hm, by decide, by decide, by decide⟩

/-- C10 witness: in a line whose `//` sits inside the string literal
`"u//v"`, everything from that `//` to the end of the line is deleted. -/
theorem C10_witness :
    removeLineComments ("x = \"u".data ++ '/' :: '/' :: ("v\"; k()".data ++ '\n' :: "tail()".data))
      = "x = \"u".data ++ '\n' :: removeLineComments "tail()".data :=
  C10_textual_comments.1 "x = \"u".data "v\"; k()".data "tail()".data (by decide) (by decide)

end L10nLint
